import Mathlib

/-!
# Verification of the htpasswd credential-store codec

A shallow embedding of `pkg/htpasswd/cmd.go` (the `passwordFile` type and its
operations `newPasswordFile`, `ListUsers`, `DeleteUser`, `SetPassword`,
`Bytes`), together with proofs of the specified properties.

Go strings are modelled as lists of characters (`Str`), the Go
`map[string]string` as an association list with unique keys (`Store`), and
the Go iteration over the map as iteration over that list.  Errors produced
with `fmt.Errorf` are modelled as inductive error values.
-/

namespace Htpasswd

/-- A Go string, as a list of characters. -/
abbrev Str := List Char

/-- Convert a Lean string literal to our string model. -/
def strOf (s : String) : Str := s.data

/-- Go `unicode.IsSpace`: the Unicode White_Space code points
(U+0009–U+000D, U+0020, U+0085, U+00A0, U+1680, U+2000–U+200A,
U+2028, U+2029, U+202F, U+205F, U+3000). -/
def goIsSpace (c : Char) : Bool :=
  decide ((9 ≤ c.toNat ∧ c.toNat ≤ 13) ∨ c.toNat = 32 ∨ c.toNat = 0x85 ∨
    c.toNat = 0xA0 ∨ c.toNat = 0x1680 ∨ (0x2000 ≤ c.toNat ∧ c.toNat ≤ 0x200A) ∨
    c.toNat = 0x2028 ∨ c.toNat = 0x2029 ∨ c.toNat = 0x202F ∨ c.toNat = 0x205F ∨
    c.toNat = 0x3000)

/-- Go `strings.TrimSpace`: drop White_Space characters from both ends. -/
def trimSpace (s : Str) : Str :=
  List.rdropWhile goIsSpace (List.dropWhile goIsSpace s)

/-- Go `strings.Split(s, sep)` for a one-character separator `sep`:
the chunks of `s` between occurrences of `sep`.  Like in Go, the result
is never empty, and splitting the empty string yields `[[]]`. -/
def splitOnChar (sep : Char) : Str → List Str
  | [] => [[]]
  | c :: cs =>
    match splitOnChar sep cs with
    | [] => [[]]
    | r :: rs => if c = sep then [] :: r :: rs else (c :: r) :: rs

/-- The in-memory credential store: the Go `map[string]string` field
`passwords` of `passwordFile`, modelled as an association list (entries in
insertion order; all stores built by the operations below have unique keys). -/
abbrev Store := List (Str × Str)

/-- Go map lookup `f.passwords[username]`: first binding of the key. -/
def findCred : Store → Str → Option Str
  | [], _ => none
  | (k, v) :: rest, u => if k = u then some v else findCred rest u

/-- The decode errors produced by `newPasswordFile` with `fmt.Errorf`:
`"invalid number of tokens"` and `"username %q already exists"`. -/
inductive DecodeError where
  | invalidTokens : DecodeError
  | duplicateUser (u : Str) : DecodeError
deriving DecidableEq

/-- The loop body of `newPasswordFile`: process the lines in order,
accumulating the map.  Each line is trimmed; blank lines are skipped;
a line must split on ':' into exactly two fields, both trimmed; a username
already present aborts with the duplicate error. -/
def decodeLines : List Str → Store → Except DecodeError Store
  | [], acc => .ok acc
  | l :: rest, acc =>
    let lt := trimSpace l
    if lt = [] then decodeLines rest acc
    else
      match splitOnChar ':' lt with
      | [p0, p1] =>
        let username := trimSpace p0
        let password := trimSpace p1
        match findCred acc username with
        | some _ => .error (.duplicateUser username)
        | none => decodeLines rest (acc ++ [(username, password)])
      | _ => .error .invalidTokens

/-- Go `newPasswordFile(data []byte)`: split the input on newlines and run
the decoding loop on an initially empty map.  (A nil slice converts to the
empty string.  The statement `bytes.Split(data, []byte{'\n'})` on the first
line of the Go function discards its result and has no effect.) -/
def newPasswordFile (data : Str) : Except DecodeError Store :=
  decodeLines (splitOnChar '\n' data) []

/-- Go `(*passwordFile).ListUsers`: the keys, in map iteration order
(modelled as list order); the Go error result is always nil. -/
def ListUsers (s : Store) : List Str := s.map Prod.fst

/-- The error produced by `DeleteUser` with `fmt.Errorf`:
`"user %q does not exist"`. -/
inductive OpError where
  | userNotFound (u : Str) : OpError
deriving DecidableEq

/-- Go `(*passwordFile).DeleteUser`: if the username is absent, return the
error and leave the map untouched; otherwise `delete` the entry.  The pair
is (returned error, state of the map after the call). -/
def DeleteUser (s : Store) (u : Str) : Option OpError × Store :=
  match findCred s u with
  | none => (some (.userNotFound u), s)
  | some _ => (none, s.filter (fun e => decide (e.1 ≠ u)))

/-- Go map assignment `f.passwords[username] = cred`: overwrite the
binding if the key is present, otherwise append a new entry. -/
def insertStore : Store → Str → Str → Store
  | [], u, p => [(u, p)]
  | (k, v) :: rest, u, p =>
    if k = u then (k, p) :: rest else (k, v) :: insertStore rest u p

/-- Go `(*passwordFile).Bytes`: one chunk `user + ":" + pass + "\n"` per
entry, concatenated in map iteration order. -/
def Bytes (s : Store) : Str :=
  (s.map (fun e => e.1 ++ (':' :: (e.2 ++ ['\n'])))).flatten

/-! ## SHA-1 (Go `crypto/sha1`) and base64 (Go `encoding/base64.StdEncoding`)

Machine words are natural numbers kept below `2 ^ 32`; bytes are natural
numbers below `256`. -/

/-- Rotate a 32-bit word left by `k` (for `0 < k < 32` and `n < 2 ^ 32`). -/
def rotl32 (k n : Nat) : Nat := (n * 2 ^ k) % 2 ^ 32 + n / 2 ^ (32 - k)

/-- The SHA-1 round constants K(t). -/
def sha1K (t : Nat) : Nat :=
  if t < 20 then 0x5A827999
  else if t < 40 then 0x6ED9EBA1
  else if t < 60 then 0x8F1BBCDC
  else 0xCA62C1D6

/-- The SHA-1 round functions f(t, b, c, d); 32-bit complement of `b` is
`0xFFFFFFFF - b`. -/
def sha1F (t b c d : Nat) : Nat :=
  if t < 20 then (b &&& c) ||| ((0xFFFFFFFF - b) &&& d)
  else if t < 40 then b ^^^ c ^^^ d
  else if t < 60 then (b &&& c) ||| (b &&& d) ||| (c &&& d)
  else b ^^^ c ^^^ d

/-- SHA-1 message padding: append `0x80`, zero bytes up to 56 mod 64, and
the bit length as an 8-byte big-endian integer. -/
def sha1Pad (msg : List Nat) : List Nat :=
  msg ++ [0x80] ++ List.replicate ((119 - msg.length % 64) % 64) 0 ++
    (List.range 8).map (fun i => 8 * msg.length / 2 ^ (8 * (7 - i)) % 256)

/-- Interpret a 64-byte block as 16 big-endian 32-bit words. -/
def bytesToWords (block : List Nat) : List Nat :=
  (List.range 16).map (fun i =>
    block.getD (4 * i) 0 * 2 ^ 24 + block.getD (4 * i + 1) 0 * 2 ^ 16 +
      block.getD (4 * i + 2) 0 * 2 ^ 8 + block.getD (4 * i + 3) 0)

/-- Extend the 16 words of a block to the 80-word message schedule. -/
def sha1Schedule (ws : List Nat) : List Nat :=
  (List.range 64).foldl (fun w i =>
    w ++ [rotl32 1 (w.getD (i + 13) 0 ^^^ w.getD (i + 8) 0 ^^^
      w.getD (i + 2) 0 ^^^ w.getD i 0)]) ws

/-- The 80-round SHA-1 compression of one 64-byte block into the running
state (h0, h1, h2, h3, h4). -/
def sha1Compress (st : Nat × Nat × Nat × Nat × Nat) (block : List Nat) :
    Nat × Nat × Nat × Nat × Nat :=
  let w := sha1Schedule (bytesToWords block)
  let f := (List.range 80).foldl
    (fun (abcde : Nat × Nat × Nat × Nat × Nat) t =>
      let a := abcde.1
      let b := abcde.2.1
      let c := abcde.2.2.1
      let d := abcde.2.2.2.1
      let e := abcde.2.2.2.2
      ((rotl32 5 a + sha1F t b c d + e + sha1K t + w.getD t 0) % 2 ^ 32,
        a, rotl32 30 b, c, d))
    (st.1, st.2.1, st.2.2.1, st.2.2.2.1, st.2.2.2.2)
  ((st.1 + f.1) % 2 ^ 32, (st.2.1 + f.2.1) % 2 ^ 32,
    (st.2.2.1 + f.2.2.1) % 2 ^ 32, (st.2.2.2.1 + f.2.2.2.1) % 2 ^ 32,
    (st.2.2.2.2 + f.2.2.2.2) % 2 ^ 32)

/-- SHA-1 of a byte sequence: the 20-byte digest, big-endian per word. -/
def sha1 (msg : List Nat) : List Nat :=
  let padded := sha1Pad msg
  let hs := ((List.range (padded.length / 64)).map
      (fun i => (padded.drop (64 * i)).take 64)).foldl sha1Compress
    (0x67452301, 0xEFCDAB89, 0x98BADCFE, 0x10325476, 0xC3D2E1F0)
  ([hs.1, hs.2.1, hs.2.2.1, hs.2.2.2.1, hs.2.2.2.2].map
    (fun h => [h / 2 ^ 24 % 256, h / 2 ^ 16 % 256, h / 2 ^ 8 % 256, h % 256])).flatten

/-- The base64 standard alphabet (Go `base64.StdEncoding`). -/
def b64Char (n : Nat) : Char :=
  (strOf ("ABCDEFGHIJKLMNOPQRSTUVWXYZabcdefghijklmnopqrstuvwxyz0123456789+/")).getD n 'A'

/-- Base64 encoding with padding of a byte sequence
(Go `base64.StdEncoding.EncodeToString`). -/
def base64Encode : List Nat → Str
  | [] => []
  | [b0] =>
    let n := b0 * 65536
    [b64Char (n / 262144), b64Char (n / 4096 % 64), '=', '=']
  | [b0, b1] =>
    let n := b0 * 65536 + b1 * 256
    [b64Char (n / 262144), b64Char (n / 4096 % 64), b64Char (n / 64 % 64), '=']
  | b0 :: b1 :: b2 :: rest =>
    let n := b0 * 65536 + b1 * 256 + b2
    [b64Char (n / 262144), b64Char (n / 4096 % 64), b64Char (n / 64 % 64),
      b64Char (n % 64)] ++ base64Encode rest

/-- UTF-8 encoding of one character (Go strings are UTF-8 byte slices). -/
def utf8Encode (c : Char) : List Nat :=
  if c.toNat < 0x80 then [c.toNat]
  else if c.toNat < 0x800 then [0xC0 + c.toNat / 64, 0x80 + c.toNat % 64]
  else if c.toNat < 0x10000 then
    [0xE0 + c.toNat / 4096, 0x80 + c.toNat / 64 % 64, 0x80 + c.toNat % 64]
  else
    [0xF0 + c.toNat / 262144, 0x80 + c.toNat / 4096 % 64,
      0x80 + c.toNat / 64 % 64, 0x80 + c.toNat % 64]

/-- The bytes of a Go string: Go `[]byte(s)`. -/
def strBytes (s : Str) : List Nat := (s.map utf8Encode).flatten

/-- The credential stored by `SetPassword`:
`"{SHA}" + base64.StdEncoding.EncodeToString(sha1(password))`. -/
def shaCredential (password : Str) : Str :=
  strOf ("{SHA}") ++ base64Encode (sha1 (strBytes password))

/-- Go `(*passwordFile).SetPassword`: hash the password and assign the
credential under the username.  `sha1.Hash.Write` never returns a non-nil
error (the `hash.Hash` contract), so the error branch is dead and the
returned error is always nil.  The pair is (returned error, state of the
map after the call). -/
def SetPassword (s : Store) (u password : Str) : Option OpError × Store :=
  (none, insertStore s u (shaCredential password))

/-! ## Helper notions used by the claims -/

/-- One encoded line of an entry, without its terminating newline. -/
def fmtEntry (e : Str × Str) : Str := e.1 ++ ':' :: e.2

/-- A well-formed entry: both fields non-empty, free of ':' and newline,
and unchanged by whitespace trimming. -/
def wfEntry (e : Str × Str) : Prop :=
  e.1 ≠ [] ∧ e.2 ≠ [] ∧ (':' ∉ e.1) ∧ (':' ∉ e.2) ∧ ('\n' ∉ e.1) ∧ ('\n' ∉ e.2) ∧
    trimSpace e.1 = e.1 ∧ trimSpace e.2 = e.2

instance (e : Str × Str) : Decidable (wfEntry e) := by
  unfold wfEntry; infer_instance

/-- The trimmed username fields of those lines that decode accepts as
well-formed (split on ':' into exactly two fields after trimming; blank
lines split into one field and so are never included). -/
def wfUsernames : List Str → List Str
  | [] => []
  | l :: rest =>
    match splitOnChar ':' (trimSpace l) with
    | [p0, _] => trimSpace p0 :: wfUsernames rest
    | _ => wfUsernames rest

/-! ## Lemmas about `splitOnChar` -/

theorem splitOnChar_ne_nil (sep : Char) (l : Str) : splitOnChar sep l ≠ [] := by
  induction l with
  | nil => simp [splitOnChar]
  | cons c cs ih =>
    unfold splitOnChar
    cases h : splitOnChar sep cs with
    | nil => simp
    | cons r rs => by_cases hc : c = sep <;> simp [hc]

theorem splitOnChar_not_mem {sep : Char} {l : Str} (h : sep ∉ l) :
    splitOnChar sep l = [l] := by
  induction l with
  | nil => rfl
  | cons c cs ih =>
    have hc : c ≠ sep := fun e => h (e ▸ List.mem_cons_self c cs)
    have hcs : sep ∉ cs := fun m => h (List.mem_cons_of_mem _ m)
    unfold splitOnChar
    rw [ih hcs]
    simp [hc]

theorem splitOnChar_cons (sep c : Char) (cs : Str) :
    splitOnChar sep (c :: cs) =
      match splitOnChar sep cs with
      | [] => [[]]
      | r :: rs => if c = sep then [] :: r :: rs else (c :: r) :: rs := rfl

theorem splitOnChar_append {sep : Char} {a : Str} (b : Str) (h : sep ∉ a) :
    splitOnChar sep (a ++ sep :: b) = a :: splitOnChar sep b := by
  induction a with
  | nil =>
    rw [List.nil_append, splitOnChar_cons]
    cases hb : splitOnChar sep b with
    | nil => exact absurd hb (splitOnChar_ne_nil sep b)
    | cons r rs => simp
  | cons c a' ih =>
    have hc : c ≠ sep := fun e => h (e ▸ List.mem_cons_self c a')
    have ha' : sep ∉ a' := fun m => h (List.mem_cons_of_mem _ m)
    rw [List.cons_append, splitOnChar_cons, ih ha']
    simp [hc]

/-! ## Lemmas about `findCred` and `insertStore` -/

theorem findCred_eq_none_iff {s : Store} {u : Str} :
    findCred s u = none ↔ u ∉ s.map Prod.fst := by
  induction s with
  | nil => simp [findCred]
  | cons e rest ih =>
    obtain ⟨k, v⟩ := e
    by_cases hk : k = u
    · subst hk
      simp [findCred]
    · simp [findCred, hk, ih, Ne.symm hk]

theorem findCred_append_of_none {a : Store} (b : Store) {u : Str}
    (h : findCred a u = none) : findCred (a ++ b) u = findCred b u := by
  induction a with
  | nil => rfl
  | cons e rest ih =>
    obtain ⟨k, v⟩ := e
    by_cases hk : k = u
    · subst hk
      simp [findCred] at h
    · simp only [List.cons_append, findCred, if_neg hk] at h ⊢
      exact ih h

theorem findCred_cons_self {s : Store} {u v : Str} :
    findCred ((u, v) :: s) u = some v := by
  simp [findCred]

theorem findCred_insert_self (s : Store) (u p : Str) :
    findCred (insertStore s u p) u = some p := by
  induction s with
  | nil => simp [insertStore, findCred]
  | cons e rest ih =>
    obtain ⟨k, v⟩ := e
    by_cases hk : k = u <;> simp [insertStore, findCred, hk, ih]

theorem findCred_insert_ne (s : Store) {u : Str} (p : Str) {w : Str}
    (h : w ≠ u) : findCred (insertStore s u p) w = findCred s w := by
  induction s with
  | nil => simp [insertStore, findCred, Ne.symm h]
  | cons e rest ih =>
    obtain ⟨k, v⟩ := e
    by_cases hk : k = u
    · subst hk
      simp [insertStore, findCred, Ne.symm h]
    · simp [insertStore, findCred, hk, ih]

theorem findCred_filter_self (s : Store) (u : Str) :
    findCred (s.filter (fun e => decide (e.1 ≠ u))) u = none := by
  rw [findCred_eq_none_iff]
  intro hm
  obtain ⟨e, he, heq⟩ := List.mem_map.mp hm
  have := List.of_mem_filter he
  simp [heq] at this

theorem findCred_filter_ne (s : Store) {u w : Str} (h : w ≠ u) :
    findCred (s.filter (fun e => decide (e.1 ≠ u))) w = findCred s w := by
  induction s with
  | nil => rfl
  | cons e rest ih =>
    obtain ⟨k, v⟩ := e
    by_cases hk : k = u
    · subst hk
      rw [List.filter_cons, if_neg (by simp), ih]
      simp [findCred, Ne.symm h]
    · rw [List.filter_cons, if_pos (by simp [hk])]
      simp only [findCred]
      by_cases hw : k = w
      · simp [hw]
      · simp only [if_neg hw]
        simpa using ih

/-! ## Lemmas about `trimSpace` -/

theorem dropWhile_eq_self_of_length {p : Char → Bool} {l : Str}
    (h : (List.dropWhile p l).length = l.length) : List.dropWhile p l = l := by
  cases l with
  | nil => rfl
  | cons c cs =>
    rw [List.dropWhile_cons] at h ⊢
    by_cases hc : p c = true
    · rw [if_pos hc] at h
      have := (List.dropWhile_sublist (l := cs) p).length_le
      simp at h
      exfalso
      omega
    · rw [if_neg hc]

theorem dropWhile_trim_eq {s : Str} (h : trimSpace s = s) :
    List.dropWhile goIsSpace s = s := by
  have h1 : (trimSpace s).length ≤ (List.dropWhile goIsSpace s).length := by
    unfold trimSpace List.rdropWhile
    rw [List.length_reverse]
    simpa using
      (List.dropWhile_sublist (l := (List.dropWhile goIsSpace s).reverse) goIsSpace).length_le
  have h2 := (List.dropWhile_sublist (l := s) goIsSpace).length_le
  have h3 := congrArg List.length h
  exact dropWhile_eq_self_of_length (by omega)

theorem rdropWhile_trim_eq {s : Str} (h : trimSpace s = s) :
    List.rdropWhile goIsSpace s = s := by
  have h0 := dropWhile_trim_eq h
  unfold trimSpace at h
  rwa [h0] at h

theorem trim_wf_line (u p : Str) (hu0 : u ≠ []) (hp0 : p ≠ [])
    (hu : List.dropWhile goIsSpace u = u) (hp : List.rdropWhile goIsSpace p = p) :
    trimSpace (u ++ ':' :: p) = u ++ ':' :: p := by
  unfold trimSpace
  have hL : List.dropWhile goIsSpace (u ++ ':' :: p) = u ++ ':' :: p := by
    cases u with
    | nil => exact absurd rfl hu0
    | cons c cs =>
      have hc : ¬ goIsSpace c = true := (List.dropWhile_eq_self_iff.mp hu) (by simp)
      rw [List.cons_append, List.dropWhile_cons, if_neg hc]
  rw [hL]
  have hx : ¬ goIsSpace (p.getLast hp0) = true := (List.rdropWhile_eq_self_iff.mp hp) hp0
  have hdecomp : u ++ ':' :: p = (u ++ ':' :: p.dropLast) ++ [p.getLast hp0] := by
    conv_lhs => rw [← List.dropLast_append_getLast hp0]
    simp
  rw [hdecomp, List.rdropWhile_concat_neg _ _ _ hx, ← hdecomp]

theorem trim_entry_eq {u p : Str} (hu0 : u ≠ []) (hp0 : p ≠ [])
    (htu : trimSpace u = u) (htp : trimSpace p = p) :
    trimSpace (u ++ ':' :: p) = u ++ ':' :: p :=
  trim_wf_line u p hu0 hp0 (dropWhile_trim_eq htu) (rdropWhile_trim_eq htp)

/-! ## Lemmas about `decodeLines` -/

theorem decodeLines_cons (l : Str) (rest : List Str) (acc : Store) :
    decodeLines (l :: rest) acc =
      if trimSpace l = [] then decodeLines rest acc
      else
        match splitOnChar ':' (trimSpace l) with
        | [p0, p1] =>
          match findCred acc (trimSpace p0) with
          | some _ => .error (.duplicateUser (trimSpace p0))
          | none => decodeLines rest (acc ++ [(trimSpace p0, trimSpace p1)])
        | _ => .error .invalidTokens := rfl

theorem decodeLines_blank {ls : List Str} (acc : Store)
    (h : ∀ l ∈ ls, trimSpace l = []) : decodeLines ls acc = .ok acc := by
  induction ls with
  | nil => rfl
  | cons l rest ih =>
    rw [decodeLines_cons, if_pos (h l (List.mem_cons_self l rest))]
    exact ih fun x hx => h x (List.mem_cons_of_mem _ hx)

theorem decodeLines_ok_spec {ls : List Str} {acc s : Store}
    (h : decodeLines ls acc = .ok s) :
    (∃ ext, s = acc ++ ext) ∧
    s.length = acc.length + (ls.filter (fun l => decide (trimSpace l ≠ []))).length ∧
    ∀ l ∈ ls, trimSpace l ≠ [] →
      ∃ u v, splitOnChar ':' (trimSpace l) = [u, v] ∧
        findCred s (trimSpace u) = some (trimSpace v) := by
  induction ls generalizing acc with
  | nil =>
    cases h
    exact ⟨⟨[], by simp⟩, by simp, by simp⟩
  | cons l rest ih =>
    rw [decodeLines_cons] at h
    by_cases hb : trimSpace l = []
    · rw [if_pos hb] at h
      obtain ⟨hext, hlen, hmem⟩ := ih h
      refine ⟨hext, ?_, ?_⟩
      · rw [List.filter_cons, if_neg (by simp [hb])]
        exact hlen
      · intro x hx hxb
        rcases List.mem_cons.mp hx with rfl | hx'
        · exact absurd hb hxb
        · exact hmem x hx' hxb
    · rw [if_neg hb] at h
      rcases hsp : splitOnChar ':' (trimSpace l) with _ | ⟨p0, _ | ⟨p1, _ | _⟩⟩ <;>
        rw [hsp] at h
      · exact absurd h (by simp)
      · exact absurd h (by simp)
      · replace h : (match findCred acc (trimSpace p0) with
            | some _ => Except.error (DecodeError.duplicateUser (trimSpace p0))
            | none => decodeLines rest (acc ++ [(trimSpace p0, trimSpace p1)])) =
            Except.ok s := h
        rcases hf : findCred acc (trimSpace p0) with _ | cred
        · rw [hf] at h
          obtain ⟨hext, hlen, hmem⟩ := ih h
          obtain ⟨ext, hext⟩ := hext
          refine ⟨⟨(trimSpace p0, trimSpace p1) :: ext, by rw [hext]; simp⟩, ?_, ?_⟩
          · rw [List.filter_cons, if_pos (by simp [hb])]
            simp only [List.length_append, List.length_cons, List.length_nil] at hlen
            simp only [List.length_cons]
            omega
          · intro x hx hxb
            rcases List.mem_cons.mp hx with rfl | hx'
            · refine ⟨p0, p1, hsp, ?_⟩
              rw [hext, List.append_assoc, List.singleton_append,
                findCred_append_of_none _ hf, findCred_cons_self]
            · exact hmem x hx' hxb
        · rw [hf] at h
          exact absurd h (by simp)
      · exact absurd h (by simp)

theorem decodeLines_formatted (s : Store) :
    ∀ acc : Store, (∀ e ∈ s, wfEntry e) → ((acc ++ s).map Prod.fst).Nodup →
      decodeLines (s.map fmtEntry ++ [[]]) acc = .ok (acc ++ s) := by
  induction s with
  | nil =>
    intro acc _ _
    simp only [List.map_nil, List.nil_append, List.append_nil]
    rfl
  | cons e s' ih =>
    intro acc hwf hnd
    obtain ⟨u, p⟩ := e
    obtain ⟨hu0, hp0, hcu, hcp, hnu, hnp, htu, htp⟩ := hwf _ (List.mem_cons_self (u, p) s')
    simp only at hu0 hp0 hcu hcp hnu hnp htu htp
    have htl : trimSpace (fmtEntry (u, p)) = fmtEntry (u, p) :=
      trim_entry_eq hu0 hp0 htu htp
    have hne : fmtEntry (u, p) ≠ [] := by simp [fmtEntry]
    rw [List.map_cons, List.cons_append, decodeLines_cons, htl, if_neg hne]
    have hsp : splitOnChar ':' (fmtEntry (u, p)) = [u, p] := by
      unfold fmtEntry
      rw [splitOnChar_append p hcu, splitOnChar_not_mem hcp]
    rw [hsp]
    show (match findCred acc (trimSpace u) with
      | some _ => Except.error (DecodeError.duplicateUser (trimSpace u))
      | none =>
        decodeLines (List.map fmtEntry s' ++ [[]])
          (acc ++ [(trimSpace u, trimSpace p)])) =
      Except.ok (acc ++ (u, p) :: s')
    rw [htu, htp]
    have hnotin : u ∉ acc.map Prod.fst := by
      intro hmem
      rw [List.map_append, List.nodup_append] at hnd
      exact hnd.2.2 hmem (by simp)
    rw [findCred_eq_none_iff.mpr hnotin]
    have heq : acc ++ (u, p) :: s' = (acc ++ [(u, p)]) ++ s' := by simp
    rw [heq] at hnd ⊢
    exact ih (acc ++ [(u, p)]) (fun x hx => hwf x (List.mem_cons_of_mem _ hx)) hnd

theorem splitOnChar_bytes (s : Store)
    (h : ∀ e ∈ s, ('\n' ∉ e.1) ∧ ('\n' ∉ e.2)) :
    splitOnChar '\n' (Bytes s) = s.map fmtEntry ++ [[]] := by
  induction s with
  | nil => rfl
  | cons e s' ih =>
    obtain ⟨u, p⟩ := e
    obtain ⟨hnu, hnp⟩ := h _ (List.mem_cons_self (u, p) s')
    simp only at hnu hnp
    have hb : Bytes ((u, p) :: s') = fmtEntry (u, p) ++ '\n' :: Bytes s' := by
      simp [Bytes, fmtEntry]
    have hmem : '\n' ∉ fmtEntry (u, p) := by
      simp only [fmtEntry, List.mem_append, List.mem_cons]
      rintro (hin | hin | hin)
      · exact hnu hin
      · exact absurd hin.symm (by decide)
      · exact hnp hin
    rw [hb, splitOnChar_append (Bytes s') hmem,
      ih (fun x hx => h x (List.mem_cons_of_mem _ hx))]
    rfl

theorem wfUsernames_cons (l : Str) (rest : List Str) :
    wfUsernames (l :: rest) =
      match splitOnChar ':' (trimSpace l) with
      | [p0, _] => trimSpace p0 :: wfUsernames rest
      | _ => wfUsernames rest := rfl

theorem decodeLines_malformed_fails {ls : List Str} (acc : Store)
    (h : ∃ l ∈ ls, trimSpace l ≠ [] ∧ (splitOnChar ':' (trimSpace l)).length ≠ 2) :
    ∃ e, decodeLines ls acc = .error e := by
  induction ls generalizing acc with
  | nil => simp at h
  | cons l rest ih =>
    rw [decodeLines_cons]
    by_cases hb : trimSpace l = []
    · rw [if_pos hb]
      apply ih
      rcases h with ⟨x, hx, hxb, hxl⟩
      rcases List.mem_cons.mp hx with rfl | hx'
      · exact absurd hb hxb
      · exact ⟨x, hx', hxb, hxl⟩
    · rw [if_neg hb]
      rcases hsp : splitOnChar ':' (trimSpace l) with _ | ⟨p0, _ | ⟨p1, _ | _⟩⟩
      · exact ⟨.invalidTokens, rfl⟩
      · exact ⟨.invalidTokens, rfl⟩
      · show ∃ e, (match findCred acc (trimSpace p0) with
          | some _ => Except.error (DecodeError.duplicateUser (trimSpace p0))
          | none => decodeLines rest (acc ++ [(trimSpace p0, trimSpace p1)])) =
          Except.error e
        rcases hf : findCred acc (trimSpace p0) with _ | cred
        · show ∃ e, decodeLines rest (acc ++ [(trimSpace p0, trimSpace p1)]) =
            Except.error e
          apply ih
          rcases h with ⟨x, hx, hxb, hxl⟩
          rcases List.mem_cons.mp hx with rfl | hx'
          · rw [hsp] at hxl
            simp at hxl
          · exact ⟨x, hx', hxb, hxl⟩
        · exact ⟨.duplicateUser (trimSpace p0), rfl⟩
      · exact ⟨.invalidTokens, rfl⟩

theorem decodeLines_nodup_invalid {ls : List Str} (acc : Store)
    (h : ∃ l ∈ ls, trimSpace l ≠ [] ∧ (splitOnChar ':' (trimSpace l)).length ≠ 2)
    (hnd : (acc.map Prod.fst ++ wfUsernames ls).Nodup) :
    decodeLines ls acc = .error .invalidTokens := by
  induction ls generalizing acc with
  | nil => simp at h
  | cons l rest ih =>
    rw [decodeLines_cons]
    by_cases hb : trimSpace l = []
    · rw [if_pos hb]
      have hwfu : wfUsernames (l :: rest) = wfUsernames rest := by
        rw [wfUsernames_cons, hb]
        rfl
      rw [hwfu] at hnd
      apply ih _ _ hnd
      rcases h with ⟨x, hx, hxb, hxl⟩
      rcases List.mem_cons.mp hx with rfl | hx'
      · exact absurd hb hxb
      · exact ⟨x, hx', hxb, hxl⟩
    · rw [if_neg hb]
      rcases hsp : splitOnChar ':' (trimSpace l) with _ | ⟨p0, _ | ⟨p1, _ | _⟩⟩
      · rfl
      · rfl
      · show (match findCred acc (trimSpace p0) with
          | some _ => Except.error (DecodeError.duplicateUser (trimSpace p0))
          | none => decodeLines rest (acc ++ [(trimSpace p0, trimSpace p1)])) =
          Except.error DecodeError.invalidTokens
        have hwfu : wfUsernames (l :: rest) = trimSpace p0 :: wfUsernames rest := by
          rw [wfUsernames_cons, hsp]
        rw [hwfu] at hnd
        have hnotin : trimSpace p0 ∉ acc.map Prod.fst := by
          rw [List.nodup_append] at hnd
          exact fun hm => hnd.2.2 hm (by simp)
        rw [findCred_eq_none_iff.mpr hnotin]
        show decodeLines rest (acc ++ [(trimSpace p0, trimSpace p1)]) =
          Except.error DecodeError.invalidTokens
        apply ih
        · rcases h with ⟨x, hx, hxb, hxl⟩
          rcases List.mem_cons.mp hx with rfl | hx'
          · rw [hsp] at hxl
            simp at hxl
          · exact ⟨x, hx', hxb, hxl⟩
        · simpa using hnd
      · rfl

theorem decodeLines_dup_fails {ls : List Str} (acc : Store)
    (hacc : (acc.map Prod.fst).Nodup)
    (h : ¬ (acc.map Prod.fst ++ wfUsernames ls).Nodup) :
    ∃ e, decodeLines ls acc = .error e := by
  induction ls generalizing acc with
  | nil =>
    rw [show wfUsernames [] = [] from rfl, List.append_nil] at h
    exact absurd hacc h
  | cons l rest ih =>
    rw [decodeLines_cons]
    by_cases hb : trimSpace l = []
    · rw [if_pos hb]
      apply ih acc hacc
      have hwfu : wfUsernames (l :: rest) = wfUsernames rest := by
        rw [wfUsernames_cons, hb]
        rfl
      rwa [hwfu] at h
    · rw [if_neg hb]
      rcases hsp : splitOnChar ':' (trimSpace l) with _ | ⟨p0, _ | ⟨p1, _ | _⟩⟩
      · exact ⟨.invalidTokens, rfl⟩
      · exact ⟨.invalidTokens, rfl⟩
      · have hwfu : wfUsernames (l :: rest) = trimSpace p0 :: wfUsernames rest := by
          rw [wfUsernames_cons, hsp]
        rw [hwfu] at h
        show ∃ e, (match findCred acc (trimSpace p0) with
          | some _ => Except.error (DecodeError.duplicateUser (trimSpace p0))
          | none => decodeLines rest (acc ++ [(trimSpace p0, trimSpace p1)])) =
          Except.error e
        rcases hf : findCred acc (trimSpace p0) with _ | cred
        · have hni : trimSpace p0 ∉ acc.map Prod.fst := findCred_eq_none_iff.mp hf
          show ∃ e, decodeLines rest (acc ++ [(trimSpace p0, trimSpace p1)]) =
            Except.error e
          apply ih
          · rw [List.map_append, List.map_cons, List.map_nil]
            refine List.Nodup.append hacc (by simp) ?_
            intro a ha hmem
            rw [List.mem_singleton] at hmem
            subst hmem
            exact hni ha
          · intro hcontra
            exact h (by simpa using hcontra)
        · exact ⟨.duplicateUser (trimSpace p0), rfl⟩
      · exact ⟨.invalidTokens, rfl⟩

theorem decodeLines_wf_not_invalid {ls : List Str} (acc : Store)
    (h : ∀ l ∈ ls, trimSpace l = [] ∨ (splitOnChar ':' (trimSpace l)).length = 2) :
    decodeLines ls acc ≠ .error .invalidTokens := by
  induction ls generalizing acc with
  | nil =>
    intro hcontra
    cases hcontra
  | cons l rest ih =>
    rw [decodeLines_cons]
    by_cases hb : trimSpace l = []
    · rw [if_pos hb]
      exact ih acc fun x hx => h x (List.mem_cons_of_mem _ hx)
    · rw [if_neg hb]
      rcases h l (List.mem_cons_self l rest) with hbl | hlen
      · exact absurd hbl hb
      · rcases hsp : splitOnChar ':' (trimSpace l) with _ | ⟨p0, _ | ⟨p1, _ | _⟩⟩ <;>
          rw [hsp] at hlen
        · simp at hlen
        · simp at hlen
        · show (match findCred acc (trimSpace p0) with
            | some _ => Except.error (DecodeError.duplicateUser (trimSpace p0))
            | none => decodeLines rest (acc ++ [(trimSpace p0, trimSpace p1)])) ≠
            Except.error DecodeError.invalidTokens
          rcases hf : findCred acc (trimSpace p0) with _ | cred
          · show decodeLines rest (acc ++ [(trimSpace p0, trimSpace p1)]) ≠
              Except.error DecodeError.invalidTokens
            exact ih _ fun x hx => h x (List.mem_cons_of_mem _ hx)
          · intro hcontra
            simp at hcontra
        · simp at hlen

/-! ## The claims -/

/-- C1: for every CredentialStore whose entries are well-formed (usernames
and credentials non-empty, containing no ':' and no newline, and not altered
by whitespace trimming) — and, being a map, with unique keys — decoding the
bytes produced by encoding the store (`newPasswordFile` applied to `Bytes`)
succeeds and yields a store with the same username-to-credential mapping,
compared order-independently. -/
theorem C1_encode_decode_roundtrip (s : Store)
    (hwf : ∀ e ∈ s, wfEntry e) (hnd : (s.map Prod.fst).Nodup) :
    ∃ s', newPasswordFile (Bytes s) = .ok s' ∧
      ∀ u, findCred s' u = findCred s u := by
  refine ⟨s, ?_, fun u => rfl⟩
  show decodeLines (splitOnChar '\n' (Bytes s)) [] = .ok s
  rw [splitOnChar_bytes s
    (fun e he => ⟨(hwf e he).2.2.2.2.1, (hwf e he).2.2.2.2.2.1⟩)]
  have hres := decodeLines_formatted s [] hwf (by simpa using hnd)
  simpa using hres

/-- Witness for C1 at a concrete well-formed two-entry store. -/
theorem C1_encode_decode_roundtrip_witness :
    ∃ s', newPasswordFile (Bytes [(strOf ("alice"), strOf ("{SHA}abc")),
        (strOf ("bob"), strOf ("x"))]) = .ok s' ∧
      ∀ u, findCred s' u =
        findCred [(strOf ("alice"), strOf ("{SHA}abc")),
          (strOf ("bob"), strOf ("x"))] u :=
  C1_encode_decode_roundtrip _ (by decide) (by decide)

/-- C6: deleting a username absent from the store fails with the
user-not-found error and leaves the store exactly as it was. -/
theorem C6_delete_absent (s : Store) (u : Str) (h : findCred s u = none) :
    DeleteUser s u = (some (.userNotFound u), s) := by
  unfold DeleteUser
  rw [h]

/-- Witness for C6: deleting "carol" from a store that lacks it. -/
theorem C6_delete_absent_witness :
    DeleteUser [(strOf ("alice"), strOf ("x"))] (strOf ("carol")) =
      (some (.userNotFound (strOf ("carol"))), [(strOf ("alice"), strOf ("x"))]) :=
  C6_delete_absent _ _ (by decide)

/-- C7: deleting a username present in the store succeeds and removes
exactly that entry: the username is absent afterwards, every other username
keeps its credential, and `ListUsers` afterwards excludes the deleted
username and includes all the others. -/
theorem C7_delete_present (s : Store) (u : Str) (h : ∃ p, findCred s u = some p) :
    (DeleteUser s u).1 = none ∧
    findCred (DeleteUser s u).2 u = none ∧
    (∀ v, v ≠ u → findCred (DeleteUser s u).2 v = findCred s v) ∧
    u ∉ ListUsers (DeleteUser s u).2 ∧
    ∀ v ∈ ListUsers s, v ≠ u → v ∈ ListUsers (DeleteUser s u).2 := by
  obtain ⟨p, hp⟩ := h
  have hD : DeleteUser s u = (none, s.filter (fun e => decide (e.1 ≠ u))) := by
    unfold DeleteUser
    rw [hp]
  rw [hD]
  refine ⟨rfl, findCred_filter_self s u, fun v hv => findCred_filter_ne s hv, ?_, ?_⟩
  · intro hm
    obtain ⟨e, he, heq⟩ := List.mem_map.mp hm
    have hf := List.of_mem_filter he
    simp [heq] at hf
  · intro v hv hvu
    obtain ⟨e, he, heq⟩ := List.mem_map.mp hv
    exact List.mem_map.mpr ⟨e, List.mem_filter.mpr ⟨he, by simp [heq, hvu]⟩, heq⟩

/-- Witness for C7: deleting "alice" from a two-entry store. -/
theorem C7_delete_present_witness :
    (DeleteUser [(strOf ("alice"), strOf ("x")), (strOf ("bob"), strOf ("y"))]
        (strOf ("alice"))).1 = none ∧
    findCred (DeleteUser [(strOf ("alice"), strOf ("x")), (strOf ("bob"), strOf ("y"))]
        (strOf ("alice"))).2 (strOf ("alice")) = none ∧
    (∀ v, v ≠ strOf ("alice") →
      findCred (DeleteUser [(strOf ("alice"), strOf ("x")), (strOf ("bob"), strOf ("y"))]
          (strOf ("alice"))).2 v =
        findCred [(strOf ("alice"), strOf ("x")), (strOf ("bob"), strOf ("y"))] v) ∧
    strOf ("alice") ∉ ListUsers (DeleteUser [(strOf ("alice"), strOf ("x")),
        (strOf ("bob"), strOf ("y"))] (strOf ("alice"))).2 ∧
    ∀ v ∈ ListUsers [(strOf ("alice"), strOf ("x")), (strOf ("bob"), strOf ("y"))],
      v ≠ strOf ("alice") →
        v ∈ ListUsers (DeleteUser [(strOf ("alice"), strOf ("x")),
            (strOf ("bob"), strOf ("y"))] (strOf ("alice"))).2 :=
  C7_delete_present _ _ ⟨strOf ("x"), by decide⟩

/-- C8 counterexample: for a store holding one entry whose credential
contains a newline, `Bytes` emits two newline-terminated lines, not one
line per entry as the claim states for every store. -/
theorem C8_counterexample :
    Bytes [(strOf ("u"), strOf ("x\ny"))] = strOf ("u:x\ny\n") ∧
    (splitOnChar '\n' (Bytes [(strOf ("u"), strOf ("x\ny"))])).length ≠ 1 + 1 := by
  decide

/-- C8 (amended): for every store whose usernames and credentials contain
no newline character, the output of `Bytes` consists of exactly one line
per map entry, each formatted as the username, a single ':', the
credential, and a terminating newline, with no blank lines emitted; a
store with N entries therefore encodes to exactly N newline-terminated
lines (N+1 chunks when split on newline, the last one empty). -/
theorem C8_encode_lines (s : Store)
    (h : ∀ e ∈ s, ('\n' ∉ e.1) ∧ ('\n' ∉ e.2)) :
    splitOnChar '\n' (Bytes s) = s.map fmtEntry ++ [[]] ∧
    (splitOnChar '\n' (Bytes s)).length = s.length + 1 ∧
    ∀ l ∈ s.map fmtEntry, l ≠ [] := by
  refine ⟨splitOnChar_bytes s h, ?_, ?_⟩
  · rw [splitOnChar_bytes s h]
    simp
  · intro l hl
    obtain ⟨e, he, rfl⟩ := List.mem_map.mp hl
    simp [fmtEntry]

/-- Witness for the amended C8 at a concrete one-entry store. -/
theorem C8_encode_lines_witness :
    splitOnChar '\n' (Bytes [(strOf ("a"), strOf ("b"))]) =
      [(strOf ("a"), strOf ("b"))].map fmtEntry ++ [[]] ∧
    (splitOnChar '\n' (Bytes [(strOf ("a"), strOf ("b"))])).length =
      [(strOf ("a"), strOf ("b"))].length + 1 ∧
    ∀ l ∈ [(strOf ("a"), strOf ("b"))].map fmtEntry, l ≠ [] :=
  C8_encode_lines _ (by decide)

/-- C9: a successful decode splits the input on newlines, trims each line,
skips lines blank after trimming, and enters each remaining line's two
':'-separated fields, both trimmed, into the store, which holds one entry
per non-blank line. -/
theorem C9_decode_shape (data : Str) (s : Store)
    (h : newPasswordFile data = .ok s) :
    s.length =
      ((splitOnChar '\n' data).filter (fun l => decide (trimSpace l ≠ []))).length ∧
    ∀ l ∈ splitOnChar '\n' data, trimSpace l ≠ [] →
      ∃ u v, splitOnChar ':' (trimSpace l) = [u, v] ∧
        findCred s (trimSpace u) = some (trimSpace v) := by
  obtain ⟨hext, hlen, hmem⟩ := decodeLines_ok_spec h
  exact ⟨by simpa using hlen, hmem⟩

/-- Witness for C9 at a concrete input with surrounding whitespace, a
blank line, and a trailing newline. -/
theorem C9_decode_shape_witness :
    [(strOf ("alice"), strOf ("x")), (strOf ("bob"), strOf ("y"))].length =
      ((splitOnChar '\n' (strOf (" alice : x \n\nbob:y\n"))).filter
        (fun l => decide (trimSpace l ≠ []))).length ∧
    ∀ l ∈ splitOnChar '\n' (strOf (" alice : x \n\nbob:y\n")), trimSpace l ≠ [] →
      ∃ u v, splitOnChar ':' (trimSpace l) = [u, v] ∧
        findCred [(strOf ("alice"), strOf ("x")), (strOf ("bob"), strOf ("y"))]
          (trimSpace u) = some (trimSpace v) :=
  C9_decode_shape _ _ rfl

/-- C10: decoding an empty byte sequence (including the nil slice passed
when a fresh secret is created, which converts to the empty string) or one
consisting only of newlines and whitespace succeeds and yields the empty
store, for which `ListUsers` returns the empty sequence. -/
theorem C10_blank_decode_empty (data : Str)
    (h : ∀ l ∈ splitOnChar '\n' data, trimSpace l = []) :
    newPasswordFile data = .ok [] ∧ ListUsers ([] : Store) = [] :=
  ⟨decodeLines_blank [] h, rfl⟩

/-- Witness for C10 at the empty input and at a whitespace-only input. -/
theorem C10_blank_decode_empty_witness :
    (newPasswordFile (strOf ("")) = .ok [] ∧ ListUsers ([] : Store) = []) ∧
    (newPasswordFile (strOf (" \n\t\n")) = .ok [] ∧ ListUsers ([] : Store) = []) :=
  ⟨C10_blank_decode_empty _ (by decide), C10_blank_decode_empty _ (by decide)⟩

/-- C2: for every store, username and plaintext password, SetPassword
succeeds (returns no error) and sets the entry for that username to
"{SHA}" followed by the standard padded base64 encoding of the raw SHA-1
digest of the password; in particular, for the password "secret" the
stored credential is exactly "{SHA}5en6G6MezRroT3XKqkdPOmY/BfQ=". -/
theorem C2_set_password_sha (s : Store) (u password : Str) :
    (SetPassword s u password).1 = none ∧
    findCred (SetPassword s u password).2 u = some (shaCredential password) ∧
    shaCredential (strOf ("secret")) = strOf ("{SHA}5en6G6MezRroT3XKqkdPOmY/BfQ=") :=
  ⟨rfl, findCred_insert_self s u (shaCredential password), by
    set_option maxRecDepth 10000 in decide⟩

/-- C5 counterexample: SetPassword performs no username validation: called
with the username ":" (which contains a colon) it returns no error and
inserts the entry, modifying the store. -/
theorem C5_counterexample :
    SetPassword [] (strOf (":")) (strOf ("x")) =
      (none, [(strOf (":"), shaCredential (strOf ("x")))]) := rfl

/-- C5 (amended): SetPassword rejects nothing: for every store and every
username — including one that contains a colon or a newline or is empty —
it succeeds (returns no error) and sets the entry under that exact
username. -/
theorem C5_no_username_validation (s : Store) (u password : Str)
    (h : ':' ∈ u ∨ '\n' ∈ u ∨ u = []) :
    (SetPassword s u password).1 = none ∧
    findCred (SetPassword s u password).2 u = some (shaCredential password) :=
  ⟨rfl, findCred_insert_self s u (shaCredential password)⟩

/-- Witness for the amended C5 at the username ":". -/
theorem C5_no_username_validation_witness :
    (SetPassword [] (strOf (":")) (strOf ("pw"))).1 = none ∧
    findCred (SetPassword [] (strOf (":")) (strOf ("pw"))).2 (strOf (":")) =
      some (shaCredential (strOf ("pw"))) :=
  C5_no_username_validation [] _ _ (Or.inl (by decide))

/-- C3 counterexample: the input "alice:x\nalice:y\nbad" contains a
non-blank line ("bad") that does not split on ':' into two fields, yet
decode fails with the duplicate-username error for "alice" — reached on an
earlier line — and not with the malformed-line error. -/
theorem C3_counterexample :
    (∃ l ∈ splitOnChar '\n' (strOf ("alice:x\nalice:y\nbad")),
      trimSpace l ≠ [] ∧ (splitOnChar ':' (trimSpace l)).length ≠ 2) ∧
    newPasswordFile (strOf ("alice:x\nalice:y\nbad")) =
      .error (.duplicateUser (strOf ("alice"))) ∧
    newPasswordFile (strOf ("alice:x\nalice:y\nbad")) ≠ .error .invalidTokens := by
  refine ⟨by decide, rfl, ?_⟩
  intro hcontra
  have h1 : (Except.error (DecodeError.duplicateUser (strOf ("alice"))) :
      Except DecodeError Store) = Except.error DecodeError.invalidTokens := hcontra
  simp at h1

/-- C3 (amended): for every input containing a non-blank line (after
trimming) that does not split on ':' into exactly two fields, decode fails
with a FormatError and returns no store at all; the error is the
malformed-line error whenever no username repeats among the input's
well-formed lines (otherwise a duplicate username on an earlier line
triggers the duplicate-username error instead). -/
theorem C3_malformed_decode_fails (data : Str)
    (h : ∃ l ∈ splitOnChar '\n' data,
      trimSpace l ≠ [] ∧ (splitOnChar ':' (trimSpace l)).length ≠ 2) :
    (∃ e, newPasswordFile data = .error e) ∧
    ((wfUsernames (splitOnChar '\n' data)).Nodup →
      newPasswordFile data = .error .invalidTokens) :=
  ⟨decodeLines_malformed_fails [] h,
    fun hnd => decodeLines_nodup_invalid [] h (by simpa using hnd)⟩

/-- Witness for the amended C3 at the input "a:b\nbad". -/
theorem C3_malformed_decode_fails_witness :
    (∃ e, newPasswordFile (strOf ("a:b\nbad")) = .error e) ∧
    ((wfUsernames (splitOnChar '\n' (strOf ("a:b\nbad")))).Nodup →
      newPasswordFile (strOf ("a:b\nbad")) = .error .invalidTokens) :=
  C3_malformed_decode_fails _ (by decide)

/-- C4 counterexample: in the input "bad\nalice:x\nalice:y" the trimmed
username "alice" appears on two non-blank lines, yet decode fails with the
malformed-line error — triggered by the earlier line "bad" — and not with
the duplicate-username error for any username. -/
theorem C4_counterexample :
    ¬ (wfUsernames (splitOnChar '\n' (strOf ("bad\nalice:x\nalice:y")))).Nodup ∧
    (wfUsernames (splitOnChar '\n'
      (strOf ("bad\nalice:x\nalice:y")))).count (strOf ("alice")) = 2 ∧
    newPasswordFile (strOf ("bad\nalice:x\nalice:y")) = .error .invalidTokens ∧
    ¬ ∃ u, newPasswordFile (strOf ("bad\nalice:x\nalice:y")) =
      .error (.duplicateUser u) := by
  refine ⟨by decide, by decide, rfl, ?_⟩
  rintro ⟨u, hu⟩
  have h1 : (Except.error DecodeError.invalidTokens : Except DecodeError Store) =
      Except.error (DecodeError.duplicateUser u) := hu
  simp at h1

/-- C4 (amended): whenever the same trimmed username appears on two or
more well-formed lines of the input, decode fails with a FormatError and
returns no store at all; the error is the duplicate-username error
whenever every non-blank line splits on ':' into exactly two fields
(otherwise an earlier malformed line triggers the malformed-line error
instead). -/
theorem C4_duplicate_decode_fails (data : Str)
    (h : ¬ (wfUsernames (splitOnChar '\n' data)).Nodup) :
    (∃ e, newPasswordFile data = .error e) ∧
    ((∀ l ∈ splitOnChar '\n' data,
        trimSpace l = [] ∨ (splitOnChar ':' (trimSpace l)).length = 2) →
      ∃ u, newPasswordFile data = .error (.duplicateUser u)) := by
  have hfail : ∃ e, newPasswordFile data = .error e :=
    decodeLines_dup_fails [] (by simp) (by simpa using h)
  refine ⟨hfail, fun hwf => ?_⟩
  obtain ⟨e, he⟩ := hfail
  cases e with
  | invalidTokens => exact absurd he (decodeLines_wf_not_invalid [] hwf)
  | duplicateUser u => exact ⟨u, he⟩

/-- Witness for the amended C4 at the input "alice:x\nalice:y". -/
theorem C4_duplicate_decode_fails_witness :
    (∃ e, newPasswordFile (strOf ("alice:x\nalice:y")) = .error e) ∧
    ((∀ l ∈ splitOnChar '\n' (strOf ("alice:x\nalice:y")),
        trimSpace l = [] ∨ (splitOnChar ':' (trimSpace l)).length = 2) →
      ∃ u, newPasswordFile (strOf ("alice:x\nalice:y")) =
        .error (.duplicateUser u)) :=
  C4_duplicate_decode_fails _ (by decide)

end Htpasswd
